import Mathlib

/- Verification of code/feature_extraction.py (negation cue detection feature
   extraction). Python strings are modelled as lists of characters; the three
   transforms (POS categorisation, neighbour extraction, affix analysis) and
   the table builder are embedded as executable Lean functions. -/

abbrev Str := List Char

/-- Values a cell of the feature table can hold: a Python string or integer. -/
inductive PyVal where
  | str (s : Str)
  | int (n : Nat)
deriving DecidableEq, Repr

/-- Python str.lower (basic-latin case mapping), applied characterwise. -/
def lowerStr (s : Str) : Str := s.map Char.toLower

/-- The constant string.punctuation of the Python standard library. -/
def punctuationChars : Str :=
  ("!\"#$%&\x27()*+,-./:;<=>?@[\\]^_\x60\x7b|\x7d~").toList

/-- Embedding of generate_pos_category (feature_extraction.py lines 8-39):
collapse fine-grained POS tags into coarse categories, first match wins. -/
def generate_pos_category (pos_tags : List Str) : List Str :=
  let adj := ["JJ".toList, "JJR".toList, "JJS".toList]
  let nn := ["NN".toList, "NNS".toList, "NNP".toList, "NNPS".toList]
  let adv := ["RB".toList, "RBR".toList, "RBS".toList]
  let vb := ["VB".toList, "VBD".toList, "VBG".toList, "VBN".toList, "VBP".toList, "VBZ".toList]
  let pro := ["PRP".toList, "PRP$".toList]
  pos_tags.map (fun pos_tag =>
    if pos_tag = [] then []
    else if pos_tag ∈ adj then "ADJ".toList
    else if pos_tag ∈ nn then "NN".toList
    else if pos_tag ∈ adv then "ADV".toList
    else if pos_tag ∈ pro then "PRO".toList
    else if pos_tag ∈ vb then "VERB".toList
    else if pos_tag.headD ' ' ∈ punctuationChars then "PUNCT".toList
    else "OTH".toList)

/-- Loop state of extract_previous_and_next: the two output lists being built
and the two one-shot boundary flags. -/
structure ExtractState where
  prevTokens : List Str
  nextTokens : List Str
  bosPrevious : Bool
  eosNext : Bool
deriving DecidableEq, Repr

/-- The previous-token value appended at loop index i (lines 60-74): "bos" at
index 0 and after a blank row, otherwise the literal predecessor. -/
def prevEntry (elements : List Str) (i : Nat) : Str :=
  if i = 0 then "bos".toList
  else if elements.getD (i - 1) [] = [] then "bos".toList
  else elements.getD (i - 1) []

/-- The retroactive overwrite of entry i-1 of the previous list (lines 66-72):
it fires when the predecessor is blank (flag just set) or the flag was set. -/
def prevListPatched (elements : List Str) (st : ExtractState) (i : Nat) : List Str :=
  if i = 0 then st.prevTokens
  else if elements.getD (i - 1) [] = [] ∨ st.bosPrevious then st.prevTokens.set (i - 1) []
  else st.prevTokens

/-- The bos_previous flag after loop index i: at i = 0 it is untouched, in the
else-branch it is always reset to false by the end of the iteration. -/
def bosAfter (st : ExtractState) (i : Nat) : Bool :=
  if i = 0 then st.bosPrevious else false

/-- The next-token value appended at loop index i (lines 76-89). -/
def nextEntry (elements : List Str) (n : Nat) (st : ExtractState) (i : Nat) : Str :=
  if st.eosNext then []
  else if i + 1 < n then
    (if elements.getD (i + 1) [] = [] then "eos".toList else elements.getD (i + 1) [])
  else "eos".toList

/-- The eos_next flag after loop index i. -/
def eosAfter (elements : List Str) (n : Nat) (st : ExtractState) (i : Nat) : Bool :=
  if st.eosNext then false
  else if i + 1 < n then (if elements.getD (i + 1) [] = [] then true else st.eosNext)
  else st.eosNext

/-- One iteration of the loop of extract_previous_and_next (lines 55-92). -/
def extractStep (elements : List Str) (n : Nat) (st : ExtractState) (i : Nat) : ExtractState :=
  { prevTokens := prevListPatched elements st i ++ [prevEntry elements i],
    nextTokens := st.nextTokens ++ [nextEntry elements n st i],
    bosPrevious := bosAfter st i,
    eosNext := eosAfter elements n st i }

/-- Embedding of extract_previous_and_next (lines 42-94). -/
def extract_previous_and_next (elements : List Str) : List Str × List Str :=
  let final := (List.range elements.length).foldl
    (extractStep elements elements.length) ⟨[], [], false, false⟩
  (final.prevTokens, final.nextTokens)

/-- Fuel-indexed helper for replaceAll; the fuel bounds the scan length. -/
def replaceAllAux (old : Str) : Nat → Str → Str
  | 0, s => s
  | _ + 1, [] => []
  | fuel + 1, c :: rest =>
    if old ≠ [] ∧ old.isPrefixOf (c :: rest) then
      replaceAllAux old fuel ((c :: rest).drop old.length)
    else c :: replaceAllAux old fuel rest

/-- Python s.replace(old, ""): every non-overlapping occurrence of old
removed, scanning left to right (a no-op for empty old). -/
def replaceAll (old s : Str) : Str := replaceAllAux old s.length s

/-- Python s.replace(old, "", 1): only the first occurrence of old removed. -/
def replaceFirst (old : Str) : Str → Str
  | [] => []
  | c :: rest =>
    if old ≠ [] ∧ old.isPrefixOf (c :: rest) then (c :: rest).drop old.length
    else c :: replaceFirst old rest

/-- The four per-«lemma» affix features of get_affixal_and_base_features. -/
structure AffixVals where
  has_affix : PyVal
  affix : Str
  base_is_word : PyVal
  base : Str
deriving DecidableEq, Repr

/-- The suffix loop of get_affixal_and_base_features (lines 120-136);
returning without a recursive call models the break on a committed match. -/
def suffixLoop («lemma» : Str) (vocab : List Str) : List Str → AffixVals → AffixVals
  | [], st => st
  | suf :: rest, st =>
    if suf.isSuffixOf «lemma» then
      let base_lemma := replaceAll suf «lemma»
      if base_lemma.length > 2 then
        let st1 : AffixVals := { st with has_affix := PyVal.int 1, affix := suf }
        if base_lemma ∈ vocab then { st1 with base_is_word := PyVal.int 1, base := base_lemma }
        else st1
      else suffixLoop «lemma» vocab rest st
    else suffixLoop «lemma» vocab rest st

/-- The prefix loop of get_affixal_and_base_features (lines 140-156). -/
def prefixLoop («lemma» : Str) (vocab : List Str) : List Str → AffixVals → AffixVals
  | [], st => st
  | p :: rest, st =>
    if p.isPrefixOf «lemma» then
      let base_lemma := replaceFirst p «lemma»
      if base_lemma.length > 3 then
        let st1 : AffixVals := { st with has_affix := PyVal.int 1, affix := p }
        if base_lemma ∈ vocab then { st1 with base_is_word := PyVal.int 1, base := base_lemma }
        else st1
      else prefixLoop «lemma» vocab rest st
    else prefixLoop «lemma» vocab rest st

/-- The per-«lemma» body of get_affixal_and_base_features (lines 107-162): blank
lemmas give four empty strings; otherwise the suffix loop runs first and the
prefix loop runs only when it left has_affix falsy. -/
def analyzeLemma («lemma» : Str) (negPrefixes negSuffixes vocab : List Str) : AffixVals :=
  if «lemma» = [] then { has_affix := PyVal.str [], affix := [], base_is_word := PyVal.str [], base := [] }
  else
    let st0 : AffixVals := { has_affix := PyVal.int 0, affix := [], base_is_word := PyVal.int 0, base := [] }
    let st1 := suffixLoop «lemma» vocab negSuffixes st0
    if st1.has_affix = PyVal.int 0 then prefixLoop «lemma» vocab negPrefixes st1 else st1

/-- Embedding of get_affixal_and_base_features (lines 97-164), one AffixVals
record per «lemma». -/
def get_affixal_and_base_features (lemmas : List Str) (negPrefixes negSuffixes vocab : List Str) :
    List AffixVals :=
  lemmas.map (fun «lemma» => analyzeLemma «lemma» negPrefixes negSuffixes vocab)

/-- One row of the preprocessed input table (seven tab-separated columns). -/
structure InputRow where
  book : Str
  sent_num : Str
  token_num : Str
  token : Str
  «lemma» : Str
  pos_tag : Str
  gold_label : Str
deriving DecidableEq, Repr

/-- One row of the emitted feature table (sixteen columns). -/
structure FeatureRow where
  book : Str
  sent_num : Str
  token_num : Str
  token : Str
  «lemma» : Str
  pos_tag : Str
  pos_category : Str
  prev_token : Str
  next_token : Str
  prev_lemma : Str
  next_lemma : Str
  has_affix : PyVal
  affix : Str
  base_is_word : PyVal
  base : Str
  gold_label : Str
deriving DecidableEq, Repr

/-- Out-of-range default for affix cells (never read at an in-range index). -/
def blankAffix : AffixVals :=
  { has_affix := PyVal.str [], affix := [], base_is_word := PyVal.str [], base := [] }

/-- Positional assembly of the output table from its columns, mirroring the
DataFrame construction of write_features (lines 205-223). -/
def assembleTable (books sentNums tokenNums tokens lemmas posTags labels : List Str)
    (negPrefixes negSuffixes vocab : List Str) : List FeatureRow :=
  let pn := extract_previous_and_next tokens
  let posCategory := generate_pos_category posTags
  let pnl := extract_previous_and_next lemmas
  let affs := get_affixal_and_base_features lemmas negPrefixes negSuffixes vocab
  (List.range books.length).map (fun i =>
    { book := books.getD i [],
      sent_num := sentNums.getD i [],
      token_num := tokenNums.getD i [],
      token := tokens.getD i [],
      «lemma» := lemmas.getD i [],
      pos_tag := posTags.getD i [],
      pos_category := posCategory.getD i [],
      prev_token := pn.1.getD i [],
      next_token := pn.2.getD i [],
      prev_lemma := pnl.1.getD i [],
      next_lemma := pnl.2.getD i [],
      has_affix := (affs.getD i blankAffix).has_affix,
      affix := (affs.getD i blankAffix).affix,
      base_is_word := (affs.getD i blankAffix).base_is_word,
      base := (affs.getD i blankAffix).base,
      gold_label := labels.getD i [] })

/-- Column extraction and lowercasing of write_features (lines 179-223): the
token and «lemma» columns are lowercased before any feature is derived. -/
def featureTable (rows : List InputRow) (negPrefixes negSuffixes vocab : List Str) :
    List FeatureRow :=
  assembleTable (rows.map (fun r => r.book)) (rows.map (fun r => r.sent_num))
    (rows.map (fun r => r.token_num)) (rows.map (fun r => lowerStr r.token))
    (rows.map (fun r => lowerStr r.«lemma»)) (rows.map (fun r => r.pos_tag))
    (rows.map (fun r => r.gold_label)) negPrefixes negSuffixes vocab

/-- Embedding of write_features (lines 167-232): assemble the feature table,
then drop the blank rows, identified by an empty book field (line 231). -/
def write_features (rows : List InputRow) (negPrefixes negSuffixes vocab : List Str) :
    List FeatureRow :=
  (featureTable rows negPrefixes negSuffixes vocab).filter (fun r => decide (r.book ≠ []))

/-- Lowercasing of the token and «lemma» fields of an input row. -/
def lowerRow (r : InputRow) : InputRow :=
  { r with token := lowerStr r.token, «lemma» := lowerStr r.«lemma» }

-- Helper lemmas

theorem toNat_ofNat_of_valid (n : Nat) (hn : n.isValidChar) : (Char.ofNat n).toNat = n := by
  simp [Char.ofNat, dif_pos hn, Char.ofNatAux, Char.toNat, UInt32.toNat]

theorem toLower_idem (c : Char) : c.toLower.toLower = c.toLower := by
  have unf : ∀ d : Char, d.toLower =
      if d.toNat ≥ 65 ∧ d.toNat ≤ 90 then Char.ofNat (d.toNat + 32) else d := fun d => rfl
  rw [unf c]
  by_cases h : c.toNat ≥ 65 ∧ c.toNat ≤ 90
  · have hv : Nat.isValidChar (c.toNat + 32) := Or.inl (by omega)
    have h32 : (Char.ofNat (c.toNat + 32)).toNat = c.toNat + 32 := toNat_ofNat_of_valid _ hv
    rw [if_pos h, unf, h32, if_neg (by omega)]
  · rw [if_neg h, unf, if_neg h]

theorem lowerStr_idem (s : Str) : lowerStr (lowerStr s) = lowerStr s := by
  simp only [lowerStr, List.map_map]
  exact List.map_congr_left (fun a _ => toLower_idem a)

theorem map_getD_range {α : Type} (l : List α) (d : α) :
    (List.range l.length).map (fun i => l.getD i d) = l := by
  induction l with
  | nil => rfl
  | cons a t ih =>
    rw [List.length_cons, List.range_succ_eq_map, List.map_cons, List.map_map]
    simp only [Function.comp_def, List.getD_cons_zero, List.getD_cons_succ]
    rw [ih]

theorem map_getD_range' {α : Type} (l : List α) (d : α) (n : Nat) (h : n = l.length) :
    (List.range n).map (fun i => l.getD i d) = l := by
  subst h; exact map_getD_range l d

theorem length_filter_add_length_filter_not {α : Type} (l : List α) (p : α → Bool) :
    (l.filter p).length + (l.filter (fun a => !(p a))).length = l.length := by
  induction l with
  | nil => rfl
  | cons a t ih => by_cases h : p a <;> simp [List.filter_cons, h] <;> omega

theorem length_filter_map_comp {α β : Type} (l : List α) (f : α → β) (q : β → Bool) :
    ((l.map f).filter q).length = (l.filter (fun a => q (f a))).length := by
  induction l with
  | nil => rfl
  | cons a t ih => by_cases h : q (f a) <;> simp [List.filter_cons, h, ih]

theorem suffixLoop_eq_find («lemma» : Str) (vocab sufs : List Str) (st : AffixVals) :
    suffixLoop «lemma» vocab sufs st =
      match sufs.find? (fun s => s.isSuffixOf «lemma» && decide (2 < (replaceAll s «lemma»).length)) with
      | none => st
      | some s =>
        if replaceAll s «lemma» ∈ vocab then
          { st with has_affix := PyVal.int 1, affix := s, base_is_word := PyVal.int 1,
                    base := replaceAll s «lemma» }
        else { st with has_affix := PyVal.int 1, affix := s } := by
  induction sufs with
  | nil => rfl
  | cons suf rest ih =>
    simp only [suffixLoop]
    by_cases h1 : suf.isSuffixOf «lemma»
    · by_cases h2 : 2 < (replaceAll suf «lemma»).length
      · rw [if_pos h1, if_pos h2, List.find?_cons_of_pos _ (by simp [h1, h2])]
      · rw [if_pos h1, if_neg h2, List.find?_cons_of_neg _ (by simp [h1, h2]), ih]
    · rw [if_neg h1, List.find?_cons_of_neg _ (by simp [h1]), ih]

theorem prefixLoop_eq_find («lemma» : Str) (vocab pres : List Str) (st : AffixVals) :
    prefixLoop «lemma» vocab pres st =
      match pres.find? (fun p => p.isPrefixOf «lemma» && decide (3 < (replaceFirst p «lemma»).length)) with
      | none => st
      | some p =>
        if replaceFirst p «lemma» ∈ vocab then
          { st with has_affix := PyVal.int 1, affix := p, base_is_word := PyVal.int 1,
                    base := replaceFirst p «lemma» }
        else { st with has_affix := PyVal.int 1, affix := p } := by
  induction pres with
  | nil => rfl
  | cons p rest ih =>
    simp only [prefixLoop]
    by_cases h1 : p.isPrefixOf «lemma»
    · by_cases h2 : 3 < (replaceFirst p «lemma»).length
      · rw [if_pos h1, if_pos h2, List.find?_cons_of_pos _ (by simp [h1, h2])]
      · rw [if_pos h1, if_neg h2, List.find?_cons_of_neg _ (by simp [h1, h2]), ih]
    · rw [if_neg h1, List.find?_cons_of_neg _ (by simp [h1]), ih]

theorem extractStep_lengths (elements : List Str) (n : Nat) (st : ExtractState) (i : Nat) :
    (extractStep elements n st i).prevTokens.length = st.prevTokens.length + 1 ∧
    (extractStep elements n st i).nextTokens.length = st.nextTokens.length + 1 := by
  constructor
  · simp only [extractStep, prevListPatched, List.length_append, List.length_singleton]
    split
    · rfl
    · split <;> simp [List.length_set]
  · simp [extractStep]

theorem foldl_extractStep_lengths (elements : List Str) (n : Nat) (idxs : List Nat)
    (st : ExtractState) :
    ((idxs.foldl (extractStep elements n) st).prevTokens.length
        = st.prevTokens.length + idxs.length) ∧
    ((idxs.foldl (extractStep elements n) st).nextTokens.length
        = st.nextTokens.length + idxs.length) := by
  induction idxs generalizing st with
  | nil => simp
  | cons i rest ih =>
    simp only [List.foldl_cons, List.length_cons]
    obtain ⟨h1, h2⟩ := ih (extractStep elements n st i)
    obtain ⟨g1, g2⟩ := extractStep_lengths elements n st i
    rw [h1, h2, g1, g2]
    omega

-- Claim theorems

/-- C4: on the input ["w1","w2","","w3"] the neighbour extractor returns
previous = ["bos","w1","","bos"] and next = ["w2","eos","","eos"]: sentinels
sit on the non-blank rows abutting the boundary and at the true edges, and the
blank row carries the empty string in both outputs. -/
theorem neighbor_extractor_boundary_case :
    extract_previous_and_next ["w1".toList, "w2".toList, [], "w3".toList] =
      (["bos".toList, "w1".toList, [], "bos".toList],
       ["w2".toList, "eos".toList, [], "eos".toList]) := by decide

/-- C8: the POS categorizer maps "" to "", "JJ" to "ADJ", "NNPS" to "NN",
"." to "PUNCT" and "FW" to "OTH", and it acts on each tag independently
(it distributes over concatenation of tag sequences). -/
theorem pos_categorizer_cases :
    generate_pos_category [[], "JJ".toList, "NNPS".toList, ".".toList, "FW".toList] =
      [[], "ADJ".toList, "NN".toList, "PUNCT".toList, "OTH".toList] ∧
    ∀ (xs ys : List Str), generate_pos_category (xs ++ ys) =
      generate_pos_category xs ++ generate_pos_category ys := by
  refine ⟨by decide, fun xs ys => ?_⟩
  simp [generate_pos_category]

/-- C7: for every input sequence, the neighbour extractor returns a previous
sequence and a next sequence of exactly the input's length. -/
theorem extract_length_preserving (elements : List Str) :
    (extract_previous_and_next elements).1.length = elements.length ∧
    (extract_previous_and_next elements).2.length = elements.length := by
  obtain ⟨h1, h2⟩ := foldl_extractStep_lengths elements elements.length
    (List.range elements.length) ⟨[], [], false, false⟩
  simp only [extract_previous_and_next]
  refine ⟨?_, ?_⟩
  · simpa using h1
  · simpa using h2

theorem analyzeLemma_eq («lemma» : Str) (negPrefixes negSuffixes vocab : List Str)
    (h : «lemma» ≠ []) :
    analyzeLemma «lemma» negPrefixes negSuffixes vocab =
      (if (suffixLoop «lemma» vocab negSuffixes
            { has_affix := PyVal.int 0, affix := [], base_is_word := PyVal.int 0, base := [] }).has_affix
          = PyVal.int 0
       then prefixLoop «lemma» vocab negPrefixes (suffixLoop «lemma» vocab negSuffixes
            { has_affix := PyVal.int 0, affix := [], base_is_word := PyVal.int 0, base := [] })
       else suffixLoop «lemma» vocab negSuffixes
            { has_affix := PyVal.int 0, affix := [], base_is_word := PyVal.int 0, base := [] }) := by
  unfold analyzeLemma
  rw [if_neg h]

/-- C9: when the last element of the input is blank and its predecessor is
not, the previous sequence carries the literal predecessor value (never the
empty string) at that final blank position: the retroactive overwrite only
fires from a row after a blank, so it cannot touch a trailing blank row. -/
theorem trailing_blank_prev_literal (xs : List Str) (x : Str) (hx : x ≠ []) :
    ((extract_previous_and_next (xs ++ [x, []])).1).getLast? = some x := by
  simp only [extract_previous_and_next]
  have hlen : (xs ++ [x, []]).length = (xs.length + 1) + 1 := by simp
  rw [hlen, List.range_succ, List.foldl_append, List.foldl_cons, List.foldl_nil]
  simp only [extractStep]
  rw [List.getLast?_concat]
  congr 1
  have hg : (xs ++ [x, []]).getD ((xs.length + 1) - 1) [] = x := by
    simp only [Nat.add_sub_cancel]
    rw [List.getD_append_right _ _ _ _ (Nat.le_refl _)]
    simp
  simp only [prevEntry]
  rw [if_neg (by omega), hg, if_neg hx]

/-- Witness for C9 at the concrete input ["w", ""]. -/
theorem trailing_blank_prev_literal_witness :
    ("w".toList ≠ ([] : Str)) ∧
    ((extract_previous_and_next ([] ++ ["w".toList, []])).1).getLast? = some ("w".toList) :=
  ⟨by decide, trailing_blank_prev_literal [] ("w".toList) (by decide)⟩

/-- C1 fails on the code: for lemma "harmlessless" and suffix "less", the
candidate stem the analyzer computes removes every occurrence of the suffix,
giving "harm", not the trailing-occurrence-only "harmless"; the committed
base feature makes the difference observable. -/
theorem suffix_stem_not_trailing_only :
    ("less".toList).isSuffixOf ("harmlessless".toList) = true ∧
    replaceAll ("less".toList) ("harmlessless".toList) ≠
      ("harmlessless".toList).take (("harmlessless".toList).length - ("less".toList).length) ∧
    (analyzeLemma ("harmlessless".toList) [] ["less".toList] ["harm".toList]).base
      = "harm".toList := by decide

/-- C1 (amended): for a suffix the lemma ends with, the candidate stem is the
lemma with every non-overlapping occurrence of that suffix removed (not only
the trailing one); when that stem is longer than 2 characters and lies in the
vocabulary, it is committed as the base feature. -/
theorem suffix_stem_removes_all_occurrences
    (ps vocab : List Str) («lemma» s : Str)
    (h1 : s.isSuffixOf «lemma» = true)
    (h2 : 2 < (replaceAll s «lemma»).length)
    (h3 : replaceAll s «lemma» ∈ vocab) :
    analyzeLemma «lemma» ps [s] vocab =
      { has_affix := PyVal.int 1, affix := s, base_is_word := PyVal.int 1,
        base := replaceAll s «lemma» } := by
  have hne : «lemma» ≠ [] := by
    rintro rfl
    simp [replaceAll, replaceAllAux] at h2
  rw [analyzeLemma_eq _ _ _ _ hne, suffixLoop_eq_find]
  rw [List.find?_cons_of_pos _ (by simp [h1, h2])]
  simp [h3]

/-- Witness for C1's amended theorem at lemma "harmlessless", suffix "less". -/
theorem suffix_stem_removes_all_occurrences_witness :
    (("less".toList).isSuffixOf ("harmlessless".toList) = true ∧
     2 < (replaceAll ("less".toList) ("harmlessless".toList)).length ∧
     replaceAll ("less".toList) ("harmlessless".toList) ∈ ["harm".toList]) ∧
    analyzeLemma ("harmlessless".toList) [] ["less".toList] ["harm".toList] =
      { has_affix := PyVal.int 1, affix := "less".toList, base_is_word := PyVal.int 1,
        base := replaceAll ("less".toList) ("harmlessless".toList) } :=
  ⟨⟨by decide, by decide, by decide⟩,
   suffix_stem_removes_all_occurrences [] (["harm".toList]) ("harmlessless".toList)
     ("less".toList) (by decide) (by decide) (by decide)⟩

/-- C2 fails on the code: for lemma "blessness" and suffix set
["blessness", "ness"], the first ending match "blessness" leaves a stem of
length 0 ≤ 2, yet the loop continues and commits the later suffix "ness";
removing the later suffix from the set changes the result. -/
theorem suffix_pass_falls_back_counterexample :
    ("blessness".toList).isSuffixOf ("blessness".toList) = true ∧
    (replaceAll ("blessness".toList) ("blessness".toList)).length ≤ 2 ∧
    (analyzeLemma ("blessness".toList) [] ["blessness".toList, "ness".toList] []).has_affix
      = PyVal.int 1 ∧
    (analyzeLemma ("blessness".toList) [] ["blessness".toList, "ness".toList] []).affix
      = "ness".toList ∧
    analyzeLemma ("blessness".toList) [] ["blessness".toList, "ness".toList] [] ≠
      analyzeLemma ("blessness".toList) [] ["blessness".toList] [] := by decide

/-- C2 (amended): in the suffix pass, the suffix committed is the first one in
iteration order whose ending matches AND whose residual stem is longer than 2
characters; an ending match with an insufficient stem records no affix via
that suffix and scanning continues with the later suffixes. -/
theorem suffix_pass_first_qualifying_match
    («lemma» : Str) (sufs vocab : List Str) (h : «lemma» ≠ []) :
    analyzeLemma «lemma» [] sufs vocab =
      match sufs.find? (fun s => s.isSuffixOf «lemma» && decide (2 < (replaceAll s «lemma»).length)) with
      | none => { has_affix := PyVal.int 0, affix := [], base_is_word := PyVal.int 0, base := [] }
      | some s =>
        if replaceAll s «lemma» ∈ vocab then
          { has_affix := PyVal.int 1, affix := s, base_is_word := PyVal.int 1,
            base := replaceAll s «lemma» }
        else { has_affix := PyVal.int 1, affix := s, base_is_word := PyVal.int 0, base := [] } := by
  rw [analyzeLemma_eq _ _ _ _ h, suffixLoop_eq_find]
  cases hf : sufs.find? (fun s => s.isSuffixOf «lemma» && decide (2 < (replaceAll s «lemma»).length)) with
  | none => simp [prefixLoop]
  | some s => by_cases hv : replaceAll s «lemma» ∈ vocab <;> simp [hv]

/-- Witness for C2's amended theorem at lemma "blessness". -/
theorem suffix_pass_first_qualifying_match_witness :
    ("blessness".toList ≠ ([] : Str)) ∧
    analyzeLemma ("blessness".toList) [] ["blessness".toList, "ness".toList] ["bless".toList] =
      match (["blessness".toList, "ness".toList].find?
          (fun s => s.isSuffixOf ("blessness".toList) &&
            decide (2 < (replaceAll s ("blessness".toList)).length))) with
      | none => { has_affix := PyVal.int 0, affix := [], base_is_word := PyVal.int 0, base := [] }
      | some s =>
        if replaceAll s ("blessness".toList) ∈ ["bless".toList] then
          { has_affix := PyVal.int 1, affix := s, base_is_word := PyVal.int 1,
            base := replaceAll s ("blessness".toList) }
        else { has_affix := PyVal.int 1, affix := s, base_is_word := PyVal.int 0, base := [] } :=
  ⟨by decide, suffix_pass_first_qualifying_match ("blessness".toList)
    (["blessness".toList, "ness".toList]) (["bless".toList]) (by decide)⟩

/-- C3 fails on the code: for lemma "unripe" and prefix set ["unrip", "un"],
the first starting match "unrip" leaves a stem of length 1 ≤ 3, yet the loop
continues and commits the later prefix "un"; removing the later prefix from
the set changes the result, so iteration did not stop at the first
startswith match. -/
theorem prefix_pass_continues_counterexample :
    ("unrip".toList).isPrefixOf ("unripe".toList) = true ∧
    (replaceFirst ("unrip".toList) ("unripe".toList)).length ≤ 3 ∧
    (analyzeLemma ("unripe".toList) ["unrip".toList, "un".toList] [] []).has_affix
      = PyVal.int 1 ∧
    (analyzeLemma ("unripe".toList) ["unrip".toList, "un".toList] [] []).affix = "un".toList ∧
    analyzeLemma ("unripe".toList) ["unrip".toList, "un".toList] [] [] ≠
      analyzeLemma ("unripe".toList) ["unrip".toList] [] [] := by decide

/-- C3 (amended): in the prefix pass, iteration stops at the first prefix the
lemma starts with whose stripped stem is longer than 3 characters; a
startswith match with an insufficient stem does not stop iteration, and later
prefixes in the set are attempted. -/
theorem prefix_pass_first_qualifying_match
    («lemma» : Str) (pres vocab : List Str) (h : «lemma» ≠ []) :
    analyzeLemma «lemma» pres [] vocab =
      match pres.find? (fun p => p.isPrefixOf «lemma» && decide (3 < (replaceFirst p «lemma»).length)) with
      | none => { has_affix := PyVal.int 0, affix := [], base_is_word := PyVal.int 0, base := [] }
      | some p =>
        if replaceFirst p «lemma» ∈ vocab then
          { has_affix := PyVal.int 1, affix := p, base_is_word := PyVal.int 1,
            base := replaceFirst p «lemma» }
        else { has_affix := PyVal.int 1, affix := p, base_is_word := PyVal.int 0, base := [] } := by
  rw [analyzeLemma_eq _ _ _ _ h]
  simp only [suffixLoop, if_true]
  rw [prefixLoop_eq_find]

/-- Witness for C3's amended theorem at lemma "unripe". -/
theorem prefix_pass_first_qualifying_match_witness :
    ("unripe".toList ≠ ([] : Str)) ∧
    analyzeLemma ("unripe".toList) ["unrip".toList, "un".toList] [] ["ripe".toList] =
      match (["unrip".toList, "un".toList].find?
          (fun p => p.isPrefixOf ("unripe".toList) &&
            decide (3 < (replaceFirst p ("unripe".toList)).length))) with
      | none => { has_affix := PyVal.int 0, affix := [], base_is_word := PyVal.int 0, base := [] }
      | some p =>
        if replaceFirst p ("unripe".toList) ∈ ["ripe".toList] then
          { has_affix := PyVal.int 1, affix := p, base_is_word := PyVal.int 1,
            base := replaceFirst p ("unripe".toList) }
        else { has_affix := PyVal.int 1, affix := p, base_is_word := PyVal.int 0, base := [] } :=
  ⟨by decide, prefix_pass_first_qualifying_match ("unripe".toList)
    (["unrip".toList, "un".toList]) (["ripe".toList]) (by decide)⟩

/-- C5: a lemma ending with some suffix in the set whose residual stem is
longer than 2 commits through the suffix path: has_affix = 1 with the affix
one such suffix, and the result does not depend on the prefix set at all (the
prefix pass is never attempted). -/
theorem suffix_priority_over_prefix
    («lemma» : Str) (sufs vocab ps ps' : List Str)
    (h : ∃ s ∈ sufs, s.isSuffixOf «lemma» = true ∧ 2 < (replaceAll s «lemma»).length) :
    (analyzeLemma «lemma» ps sufs vocab).has_affix = PyVal.int 1 ∧
    (∃ s ∈ sufs, s.isSuffixOf «lemma» = true ∧ 2 < (replaceAll s «lemma»).length ∧
      (analyzeLemma «lemma» ps sufs vocab).affix = s) ∧
    analyzeLemma «lemma» ps sufs vocab = analyzeLemma «lemma» ps' sufs vocab := by
  have hne : «lemma» ≠ [] := by
    rintro rfl
    obtain ⟨s, _, _, h2⟩ := h
    simp [replaceAll, replaceAllAux] at h2
  have hsome : (sufs.find? (fun s => s.isSuffixOf «lemma» &&
      decide (2 < (replaceAll s «lemma»).length))).isSome := by
    rw [List.find?_isSome]
    obtain ⟨s, hmem, h1, h2⟩ := h
    exact ⟨s, hmem, by simp [h1, h2]⟩
  obtain ⟨s₀, hf⟩ := Option.isSome_iff_exists.mp hsome
  have hmem₀ := List.mem_of_find?_eq_some hf
  obtain ⟨hp1, hp2⟩ : s₀.isSuffixOf «lemma» = true ∧ 2 < (replaceAll s₀ «lemma»).length := by
    have hp := List.find?_some hf
    simpa using hp
  have key : ∀ qs : List Str, analyzeLemma «lemma» qs sufs vocab =
      (if replaceAll s₀ «lemma» ∈ vocab then
        { has_affix := PyVal.int 1, affix := s₀, base_is_word := PyVal.int 1,
          base := replaceAll s₀ «lemma» }
       else { has_affix := PyVal.int 1, affix := s₀, base_is_word := PyVal.int 0, base := [] }) := by
    intro qs
    rw [analyzeLemma_eq _ _ _ _ hne, suffixLoop_eq_find, hf]
    by_cases hv : replaceAll s₀ «lemma» ∈ vocab <;> simp [hv]
  refine ⟨?_, ⟨s₀, hmem₀, hp1, hp2, ?_⟩, ?_⟩
  · rw [key ps]; by_cases hv : replaceAll s₀ «lemma» ∈ vocab <;> simp [hv]
  · rw [key ps]; by_cases hv : replaceAll s₀ «lemma» ∈ vocab <;> simp [hv]
  · rw [key ps, key ps']

/-- Witness for C5 at lemma "unuseless", which also starts with the prefix
"un" of the prefix set. -/
theorem suffix_priority_over_prefix_witness :
    (∃ s ∈ ["less".toList], s.isSuffixOf ("unuseless".toList) = true ∧
      2 < (replaceAll s ("unuseless".toList)).length) ∧
    ((analyzeLemma ("unuseless".toList) ["un".toList] ["less".toList] []).has_affix
        = PyVal.int 1 ∧
     (∃ s ∈ ["less".toList], s.isSuffixOf ("unuseless".toList) = true ∧
        2 < (replaceAll s ("unuseless".toList)).length ∧
        (analyzeLemma ("unuseless".toList) ["un".toList] ["less".toList] []).affix = s) ∧
     analyzeLemma ("unuseless".toList) ["un".toList] ["less".toList] [] =
       analyzeLemma ("unuseless".toList) [] ["less".toList] []) :=
  ⟨by decide, suffix_priority_over_prefix ("unuseless".toList) (["less".toList]) []
    (["un".toList]) [] (by decide)⟩

theorem featureTable_map_book (rows : List InputRow) (nps nss vocab : List Str) :
    (featureTable rows nps nss vocab).map (fun r => r.book) = rows.map (fun r => r.book) := by
  unfold featureTable assembleTable
  simp only [List.map_map, Function.comp_def]
  exact map_getD_range (rows.map (fun r => r.book)) []

theorem featureTable_map_sent_num (rows : List InputRow) (nps nss vocab : List Str) :
    (featureTable rows nps nss vocab).map (fun r => r.sent_num)
      = rows.map (fun r => r.sent_num) := by
  unfold featureTable assembleTable
  simp only [List.map_map, Function.comp_def]
  exact map_getD_range' (rows.map (fun r => r.sent_num)) [] ((rows.map (fun r => r.book)).length) (by simp)

theorem featureTable_map_token_num (rows : List InputRow) (nps nss vocab : List Str) :
    (featureTable rows nps nss vocab).map (fun r => r.token_num)
      = rows.map (fun r => r.token_num) := by
  unfold featureTable assembleTable
  simp only [List.map_map, Function.comp_def]
  exact map_getD_range' (rows.map (fun r => r.token_num)) [] ((rows.map (fun r => r.book)).length) (by simp)

theorem featureTable_map_pos_tag (rows : List InputRow) (nps nss vocab : List Str) :
    (featureTable rows nps nss vocab).map (fun r => r.pos_tag)
      = rows.map (fun r => r.pos_tag) := by
  unfold featureTable assembleTable
  simp only [List.map_map, Function.comp_def]
  exact map_getD_range' (rows.map (fun r => r.pos_tag)) [] ((rows.map (fun r => r.book)).length) (by simp)

theorem featureTable_map_gold_label (rows : List InputRow) (nps nss vocab : List Str) :
    (featureTable rows nps nss vocab).map (fun r => r.gold_label)
      = rows.map (fun r => r.gold_label) := by
  unfold featureTable assembleTable
  simp only [List.map_map, Function.comp_def]
  exact map_getD_range' (rows.map (fun r => r.gold_label)) [] ((rows.map (fun r => r.book)).length) (by simp)

theorem featureTable_map_token (rows : List InputRow) (nps nss vocab : List Str) :
    (featureTable rows nps nss vocab).map (fun r => r.token)
      = rows.map (fun r => lowerStr r.token) := by
  unfold featureTable assembleTable
  simp only [List.map_map, Function.comp_def]
  exact map_getD_range' (rows.map (fun r => lowerStr r.token)) [] ((rows.map (fun r => r.book)).length) (by simp)

theorem featureTable_map_lemma (rows : List InputRow) (nps nss vocab : List Str) :
    (featureTable rows nps nss vocab).map (fun r => r.«lemma»)
      = rows.map (fun r => lowerStr r.«lemma») := by
  unfold featureTable assembleTable
  simp only [List.map_map, Function.comp_def]
  exact map_getD_range' (rows.map (fun r => lowerStr r.«lemma»)) [] ((rows.map (fun r => r.book)).length) (by simp)

theorem featureTable_lowerRow_invariant (rows : List InputRow) (nps nss vocab : List Str) :
    featureTable (rows.map lowerRow) nps nss vocab = featureTable rows nps nss vocab := by
  have hbook : (rows.map lowerRow).map (fun r => r.book) = rows.map (fun r => r.book) := by
    rw [List.map_map]; exact List.map_congr_left (fun a _ => rfl)
  have hsent : (rows.map lowerRow).map (fun r => r.sent_num) = rows.map (fun r => r.sent_num) := by
    rw [List.map_map]; exact List.map_congr_left (fun a _ => rfl)
  have htnum : (rows.map lowerRow).map (fun r => r.token_num) = rows.map (fun r => r.token_num) := by
    rw [List.map_map]; exact List.map_congr_left (fun a _ => rfl)
  have hpos : (rows.map lowerRow).map (fun r => r.pos_tag) = rows.map (fun r => r.pos_tag) := by
    rw [List.map_map]; exact List.map_congr_left (fun a _ => rfl)
  have hlab : (rows.map lowerRow).map (fun r => r.gold_label) = rows.map (fun r => r.gold_label) := by
    rw [List.map_map]; exact List.map_congr_left (fun a _ => rfl)
  have htok : (rows.map lowerRow).map (fun r => lowerStr r.token)
      = rows.map (fun r => lowerStr r.token) := by
    rw [List.map_map]; exact List.map_congr_left (fun a _ => lowerStr_idem a.token)
  have hlem : (rows.map lowerRow).map (fun r => lowerStr r.«lemma»)
      = rows.map (fun r => lowerStr r.«lemma») := by
    rw [List.map_map]; exact List.map_congr_left (fun a _ => lowerStr_idem a.«lemma»)
  unfold featureTable
  rw [hbook, hsent, htnum, hpos, hlab, htok, hlem]

/-- C6: dropping blank rows (empty book field) is exact on row counts: the
output row count plus the number of blank input rows equals the input row
count, so N blank rows give exactly N fewer rows and zero blank rows give
equal counts. -/
theorem write_features_row_count (rows : List InputRow) (nps nss vocab : List Str) :
    (write_features rows nps nss vocab).length
        + (rows.filter (fun r => decide (r.book = []))).length = rows.length := by
  have key : (write_features rows nps nss vocab).length
      = (rows.filter (fun r => decide (r.book ≠ []))).length := by
    unfold write_features
    have e1 := length_filter_map_comp (featureTable rows nps nss vocab) (fun r => r.book)
      (fun b => decide (b ≠ []))
    rw [← e1, featureTable_map_book, length_filter_map_comp]
  have hnot : rows.filter (fun r => !(decide (r.book = [])))
      = rows.filter (fun r => decide (r.book ≠ [])) := by
    simp only [ne_eq, decide_not]
  have comp := length_filter_add_length_filter_not rows (fun r => decide (r.book = []))
  rw [hnot] at comp
  rw [key]
  omega

/-- C10: the builder lowercases token and lemma before feature extraction:
the emitted table is invariant under pre-lowercasing the token and lemma
input columns (so every derived column depends only on the lowercased forms),
book, sentence number, token number, POS tag and gold label pass through
unchanged, and the emitted token and lemma columns are the lowercased input
values. -/
theorem write_features_lowercasing (rows : List InputRow) (nps nss vocab : List Str) :
    write_features (rows.map lowerRow) nps nss vocab = write_features rows nps nss vocab ∧
    (featureTable rows nps nss vocab).map (fun r => r.book) = rows.map (fun r => r.book) ∧
    (featureTable rows nps nss vocab).map (fun r => r.sent_num)
      = rows.map (fun r => r.sent_num) ∧
    (featureTable rows nps nss vocab).map (fun r => r.token_num)
      = rows.map (fun r => r.token_num) ∧
    (featureTable rows nps nss vocab).map (fun r => r.pos_tag)
      = rows.map (fun r => r.pos_tag) ∧
    (featureTable rows nps nss vocab).map (fun r => r.gold_label)
      = rows.map (fun r => r.gold_label) ∧
    (featureTable rows nps nss vocab).map (fun r => r.token)
      = rows.map (fun r => lowerStr r.token) ∧
    (featureTable rows nps nss vocab).map (fun r => r.«lemma»)
      = rows.map (fun r => lowerStr r.«lemma») := by
  refine ⟨?_, featureTable_map_book rows nps nss vocab,
    featureTable_map_sent_num rows nps nss vocab,
    featureTable_map_token_num rows nps nss vocab,
    featureTable_map_pos_tag rows nps nss vocab,
    featureTable_map_gold_label rows nps nss vocab,
    featureTable_map_token rows nps nss vocab,
    featureTable_map_lemma rows nps nss vocab⟩
  unfold write_features
  rw [featureTable_lowerRow_invariant]
